import Mathlib

/-!
# Verification of glom's Path / T-expression model (`glom/path.pyx`)

Shallow embedding of the `Path` class from `src/glom/path.pyx` and of the parts
of `glom.core` it relies on (`_T_PATHS`, `_t_child`, `_t_eval`), the latter
modelled from the spec since `core.py` is not among the provided sources.

A `TType` (a T-expression node) is identified with its `_T_PATHS` entry: the
tuple `(root, op1, arg1, op2, arg2, ...)`.  We embed that tuple as a Lean list
of `TPathElem` values.  Integer index arithmetic performed by the Python code on
this flattened tuple (in `Path.__getitem__`) is reproduced exactly, including
Python's sequence-slicing semantics (`pySlice` / `pyExtSlice` below implement
CPython's slice normalisation rules).
-/

namespace Glom

/-- Roots of a T-expression: the target root `T` or the scope root `S`
(`glom.core` singletons). -/
inductive Root
  | T
  | S
  deriving DecidableEq, Repr, Inhabited

/-- Operation kinds stored at the odd positions of a `_T_PATHS` tuple:
`'.'` (attribute access), `'['` (item access), `'P'` (generic path access). -/
inductive POp
  | attr
  | item
  | pstep
  deriving DecidableEq, Repr, Inhabited

/-- Operand values appearing in paths: strings and integers, plus the wildcard
sentinels `_T_STAR` / `_T_STARSTAR` substituted by `Path.from_text` when the
`PATH_STAR` feature flag is on (modelled from the spec: the wildcard step kinds
of `glom.core` are not among the provided sources). -/
inductive PVal
  | str (s : String)
  | int (n : Int)
  | star
  | starstar
  deriving DecidableEq, Repr, Inhabited

/-- One element of a `_T_PATHS` tuple.  Python stores heterogeneous values
(`T`/`S` root objects, operation marker strings, operands); we tag them. -/
inductive TPathElem
  | rootEl (r : Root)
  | opEl (o : POp)
  | valEl (v : PVal)
  deriving DecidableEq, Repr

instance : Inhabited TPathElem := ⟨.opEl .pstep⟩

/-- A T-expression node, identified with its `_T_PATHS` entry (the Python code
gives `TType` objects no state of their own; every observation the `Path` code
makes goes through `_T_PATHS[t]`, which this list embeds). -/
structure TType where
  tpath : List TPathElem
  deriving DecidableEq, Repr

/-- The `_T_PATHS` registry lookup: the path tuple of a node. -/
def _T_PATHS (t : TType) : List TPathElem := t.tpath

/-- The root node `T` (`_T_PATHS[T] == (T,)`). -/
def rootT : TType := ⟨[.rootEl .T]⟩

/-- The scope root node `S` (`_T_PATHS[S] == (S,)`). -/
def rootS : TType := ⟨[.rootEl .S]⟩

/-- Modelled from the spec: `glom.core._t_child(parent, operation, arg)` (not
among the provided sources) returns a new node whose path tuple is the parent's
with `(operation, arg)` appended. -/
def _t_child (t : TType) (o a : TPathElem) : TType := ⟨t.tpath ++ [o, a]⟩

/-- A step of a well-formed node: an (operation, operand) pair. -/
abbrev Step := POp × PVal

/-- Flatten a step list into consecutive (operation, operand) tuple elements. -/
def stepsToElems : List Step → List TPathElem
  | [] => []
  | (o, v) :: rest => .opEl o :: .valEl v :: stepsToElems rest

/-- Flatten a list of raw element pairs (Python's `sum(pairs, ())` in
`Path.__getitem__`). -/
def pairsToElems : List (TPathElem × TPathElem) → List TPathElem
  | [] => []
  | (a, b) :: rest => a :: b :: pairsToElems rest

/-- The well-formed node over a root and a step list. -/
def mkT (r : Root) (steps : List Step) : TType := ⟨.rootEl r :: stepsToElems steps⟩

/-- The element pair a step contributes to the flattened tuple. -/
def stepPair (s : Step) : TPathElem × TPathElem := (.opEl s.1, .valEl s.2)

/-- The `Path` class of `glom/path.pyx`: a wrapper holding `path_t`. -/
structure Path where
  path_t : TType
  deriving DecidableEq, Repr

/-- The well-formed path over a root and a step list. -/
def mkPath (r : Root) (steps : List Step) : Path := ⟨mkT r steps⟩

/-- An argument to `Path(*path_parts)`: a plain (non-`Path`, non-`TType`)
value, a bare T-expression, or another `Path`. -/
inductive PathPart
  | plain (v : PVal)
  | t (tt : TType)
  | p (pp : Path)
  deriving DecidableEq, Repr

/-- The `while i < len(sub_parts)` loop of `Path.__init__`: append the
(operation, arg) element pairs of a sub-expression via `_t_child`.  An odd
leftover element would make Python's `sub_parts[i + 1]` raise `IndexError`. -/
def appendSub (acc : TType) : List TPathElem → Except String TType
  | [] => .ok acc
  | o :: a :: rest => appendSub (_t_child acc o a) rest
  | [_] => .error "IndexError"

/-- Handling of one `TType` part inside `Path.__init__`'s loop: reject
sub-expressions whose root is not `T` (`sub_parts[0] is not T`), then append
its steps.  An empty tuple would make Python's `sub_parts[0]` raise. -/
def subAppend (acc tt : TType) : Except String TType :=
  match _T_PATHS tt with
  | [] => .error "IndexError"
  | r :: subRest =>
    if r = TPathElem.rootEl Root.T then appendSub acc subRest
    else .error "path segment must be path from T"

/-- One iteration of the `for part in path_parts[offset:]` loop of
`Path.__init__`: a `Path` is unwrapped to its `path_t`; a `TType` is appended
through the root check; any other value becomes a `('P', part)` child. -/
def pathInitStep (acc : TType) (part : PathPart) : Except String TType :=
  match part with
  | .plain v => .ok (_t_child acc (.opEl .pstep) (.valEl v))
  | .t tt => subAppend acc tt
  | .p pp => subAppend acc pp.path_t

/-- `Path.__init__`: no parts yields `path_t = T`; a leading bare `TType`
becomes the starting `path_t` (with no root check); every remaining part goes
through `pathInitStep`.  Errors are the `ValueError` raised for scope-rooted
sub-expressions (construction time, never deferred). -/
def pathInit (parts : List PathPart) : Except String Path :=
  match parts with
  | [] => .ok ⟨rootT⟩
  | first :: rest =>
    let startTodo : TType × List PathPart :=
      match first with
      | .t tt => (tt, rest)
      | _ => (rootT, first :: rest)
    (startTodo.2.foldlM pathInitStep startTodo.1).map (fun t => ⟨t⟩)

/-- `Path.__len__`: `(len(_T_PATHS[self.path_t]) - 1) // 2`. -/
def Path.len (p : Path) : Nat := ((_T_PATHS p.path_t).length - 1) / 2

/-- The `other` argument of `Path.__eq__`: another `Path`, a bare
T-expression, or a value of any other type. -/
inductive EqArg
  | path (q : Path)
  | t (tt : TType)
  | other
  deriving Repr

/-- `Path.__eq__`: compare `_T_PATHS` tuples when `other` is a `Path` or a
`TType`; anything else compares unequal. -/
def Path.eq (p : Path) (o : EqArg) : Bool :=
  match o with
  | .path q => decide (_T_PATHS p.path_t = _T_PATHS q.path_t)
  | .t tt => decide (_T_PATHS p.path_t = _T_PATHS tt)
  | .other => false

section PythonSlicing

variable {α : Type _}

/-- CPython index normalisation for a unit-step slice bound over a sequence of
length `len`: negative indices count from the end, then the result is clamped
into `[0, len]`. -/
def pyClamp (len : Nat) (i : Int) : Nat :=
  let j := if i < 0 then i + len else i
  if j ≤ 0 then 0 else if (len : Int) ≤ j then len else j.toNat

/-- Python `l[start:stop]` (step 1), with `None` bounds defaulting to the ends. -/
def pySlice (l : List α) (st sp : Option Int) : List α :=
  let s := pyClamp l.length (st.getD 0)
  let e := pyClamp l.length (sp.getD (l.length : Int))
  (l.take e).drop s

/-- Take every `k`-th element starting at the head (counter-based so that the
definition is structurally recursive and kernel-reducible). -/
def everyNthAux (k : Nat) : Nat → List α → List α
  | _, [] => []
  | 0, a :: rest => a :: everyNthAux k (k - 1) rest
  | n + 1, _ :: rest => everyNthAux k n rest

/-- `l[::k]` for a positive stride `k`. -/
def everyNth (k : Nat) (l : List α) : List α := everyNthAux k 0 l

/-- Python extended slicing `l[start:stop:step]` with CPython's
`slice.indices` normalisation.  A positive step takes every `step`-th element
of the unit slice; a negative step walks from the (clamped) start down to the
(exclusive) stop.  A zero step makes CPython raise `ValueError`; we return `[]`
and exclude that case from every statement below. -/
def pyExtSlice [Inhabited α] (l : List α) (st sp k : Option Int) : List α :=
  let kk := k.getD 1
  if 0 < kk then everyNth kk.toNat (pySlice l st sp)
  else if kk = 0 then []
  else
    let len : Int := l.length
    let stp : Int := -kk
    let start : Int :=
      match st with
      | none => len - 1
      | some i => if i < 0 then max (i + len) (-1) else min i (len - 1)
    let stop : Int :=
      match sp with
      | none => -1
      | some i => if i < 0 then max (i + len) (-1) else min i (len - 1)
    if start ≤ stop then []
    else (List.range ((start - stop - 1) / stp + 1).toNat).map
      (fun j => l.getD (start - (j : Int) * stp).toNat default)

end PythonSlicing

/-- `Path.values`: `cur_t_path[2::2]`, the tuple of operands. -/
def Path.values (p : Path) : List TPathElem :=
  pyExtSlice (_T_PATHS p.path_t) (some 2) none (some 2)

/-- `Path.items`: `zip(cur_t_path[1::2], cur_t_path[2::2])`, the tuple of
(operation, operand) pairs. -/
def Path.items (p : Path) : List (TPathElem × TPathElem) :=
  let cur := _T_PATHS p.path_t
  (pyExtSlice cur (some 1) none (some 2)).zip (pyExtSlice cur (some 2) none (some 2))

/-- The argument of `Path.__getitem__`: an integer index or a slice. -/
inductive GetArg
  | idx (i : Int)
  | slc (start stop step : Option Int)
  deriving Repr

/-- The flattened-tuple position of a step bound in `Path.__getitem__`:
`(i * 2) + 1 if i >= 0 else (i * 2) + len(cur_t_path)`. -/
def flatIdx (len : Nat) (i : Int) : Int := if 0 ≤ i then 2 * i + 1 else 2 * i + len

/-- The `if step is not None and step != 1` restriding of
`Path.__getitem__`: regroup the sliced flattened tuple into pairs
(`zip(new_path[::2], new_path[1::2])`), stride over the pairs, and flatten
back (`sum(new_path, ())`). -/
def getitemRestride (newPath : List TPathElem) (k : Option Int) : List TPathElem :=
  match k with
  | none => newPath
  | some kk =>
    if kk = 1 then newPath
    else
      pairsToElems (pyExtSlice ((pyExtSlice newPath none none (some 2)).zip
        (pyExtSlice newPath (some 1) none (some 2))) none none (some kk))

/-- The tail of `Path.__getitem__` shared by both branches: slice the
flattened tuple, restride when a non-unit step was given, and rebuild a node
over the original tuple's first element (`cur_t_path[0]`; `headD` stands in
for Python's indexing, which cannot see an empty tuple here since every
constructed node starts from a root). -/
def getitemNewT (cur : List TPathElem) (start : Int) (stop : Option Int)
    (k : Option Int) : TType :=
  ⟨cur.headD default :: getitemRestride (pySlice cur (some start) stop) k⟩

/-- `Path.__getitem__`.  The slice branch rescales the bounds onto the
flattened tuple and never raises; the integer branch raises `IndexError` when
the rescaled start lands outside `[0, len(cur_t_path)]`.  Both end with
`Path(new_t)`, i.e. `Path.__init__` on a single bare `TType` part. -/
def Path.getitem (p : Path) (a : GetArg) : Except String Path :=
  let cur := _T_PATHS p.path_t
  match a with
  | .slc st sp k =>
    pathInit [.t (getitemNewT cur (flatIdx cur.length (st.getD 0))
      (sp.map (flatIdx cur.length)) k)]
  | .idx i =>
    let start := flatIdx cur.length i
    if start < 0 ∨ (cur.length : Int) < start then .error "Path index out of range"
    else
      let stop : Int := if 0 ≤ i then 2 * (i + 1) + 1 else 2 * (i + 1) + cur.length
      pathInit [.t (getitemNewT cur start (some stop) (some 1))]

/-- The argument of `Path.startswith`: a string, a `Path`, a bare
T-expression, or a value of any other type. -/
inductive SWArg
  | str (s : String)
  | path (q : Path)
  | t (tt : TType)
  | other
  deriving Repr

/-- The tuple-prefix test of `Path.startswith`:
`_T_PATHS[self.path_t][:len(o_path)] == o_path`. -/
def swCheck (p : Path) (tt : TType) : Bool :=
  decide ((_T_PATHS p.path_t).take (_T_PATHS tt).length = _T_PATHS tt)

/-- `Path.startswith`: a string is first wrapped as `Path(other)` (one plain
part — the text is *not* split on dots), a `Path` is unwrapped to its
`path_t`; anything that is then not a `TType` raises `TypeError`. -/
def Path.startswith (p : Path) (o : SWArg) : Except String Bool :=
  match o with
  | .str s => (pathInit [.plain (.str s)]).map (fun q => swCheck p q.path_t)
  | .path q => .ok (swCheck p q.path_t)
  | .t tt => .ok (swCheck p tt)
  | .other => .error "can only check if Path starts with string, Path or T"

/-- Modelled from the spec: a target is an arbitrary runtime value, opaque
except through registered read operations ("delegating attribute/item reads to
the Operation Registry").  We model a value as an atom or a finite keyed
container; attribute, item and generic-path reads all become one keyed lookup
(the registry's per-type dispatch is out of scope for these claims). -/
inductive Target
  | atom (v : PVal)
  | node (entries : List (PVal × Target))

/-- Keyed read on a container's entries (first match wins). -/
def lookupEntry (v : PVal) : List (PVal × Target) → Option Target
  | [] => none
  | (k, t) :: rest => if k = v then some t else lookupEntry v rest

/-- Modelled from the spec: the step walk of `glom.core._t_eval` (not among
the provided sources) — "evaluates steps in order", failing with a
`PathAccessError` when a named step cannot be resolved. -/
def evalSteps (cur : Target) : List TPathElem → Except String Target
  | [] => .ok cur
  | .opEl _ :: .valEl v :: rest =>
    match cur with
    | .node entries =>
      match lookupEntry v entries with
      | some child => evalSteps child rest
      | none => .error "PathAccessError"
    | .atom _ => .error "PathAccessError"
  | _ => .error "invalid path node"

/-- Modelled from the spec: `glom.core._t_eval(target, t, scope)` (not among
the provided sources) — "`resolve(node, target, scope)`: evaluates steps in
order"; the root picks the start value (the target for `T`, the scope for
`S`); "Empty expression resolves to the unchanged target." -/
def _t_eval (target : Target) (t : TType) (scope : Target) : Except String Target :=
  match _T_PATHS t with
  | .rootEl .T :: rest => evalSteps target rest
  | .rootEl .S :: rest => evalSteps scope rest
  | _ => .error "invalid path node"

/-- `Path.glomit`: `_t_eval(target, self.path_t, scope)`. -/
def Path.glomit (p : Path) (target scope : Target) : Except String Target :=
  _t_eval target p.path_t scope

/-- Modelled from the spec: expression nodes support structural hashing
(`TType.__hash__` lives in `glom.core`, not among the provided sources); the
hash is computed from the node's path tuple alone. -/
def elemCode : TPathElem → Nat
  | .rootEl .T => 2
  | .rootEl .S => 3
  | .opEl .attr => 5
  | .opEl .item => 7
  | .opEl .pstep => 11
  | .valEl (.str s) => 13 + 31 * s.length + (s.foldl (fun h c => h + c.toNat) 0)
  | .valEl (.int n) => 17 + 31 * n.natAbs
  | .valEl .star => 19
  | .valEl .starstar => 23

/-- Modelled from the spec: structural hash of a node, folded over its path
tuple. -/
def tHash (t : TType) : Nat :=
  (_T_PATHS t).foldl (fun h e => h * 1000003 + elemCode e) 7

/-- `Path._MAX_CACHE`. -/
def _MAX_CACHE : Nat := 10000

/-- The mutable class-level state consulted by `Path.from_text`: the per-flag
interning caches `Path._CACHE[True]` / `Path._CACHE[False]` (insertion-ordered
association lists) and the one-shot `Path._STAR_WARNED` latch. -/
structure FTState where
  cacheTrue : List (String × Path)
  cacheFalse : List (String × Path)
  starWarned : Bool
  deriving Repr

/-- The state at class-definition time: empty caches, warning not yet issued. -/
def initFTState : FTState := ⟨[], [], false⟩

/-- Dictionary lookup `cache[text]` / membership `text in cache`. -/
def lookupText (text : String) : List (String × Path) → Option Path
  | [] => none
  | (t, p) :: rest => if t = text then some p else lookupText text rest

/-- Does the dotted text contain a literal wildcard segment
(`'*' in segs or '**' in segs`)? -/
def hasStarSeg (text : String) : Bool :=
  let segs := text.splitOn "."
  segs.contains "*" || segs.contains "**"

/-- The per-segment substitution applied by `create()` when `PATH_STAR` is on:
`'*'` and `'**'` segments become the wildcard sentinels, everything else stays
a plain string segment. -/
def starMapSeg (pathStar : Bool) (seg : String) : PVal :=
  if pathStar && seg == "*" then .star
  else if pathStar && seg == "**" then .starstar
  else .str seg

/-- The `Path` value built by `create()` inside `Path.from_text`:
`cls(*segs)` on the (possibly wildcard-substituted) segments of
`text.split('.')`.  All segments are plain parts, so `Path.__init__` cannot
fail here (`pathInit_plain` below certifies this against `pathInit`). -/
def createFromText (pathStar : Bool) (text : String) : Path :=
  mkPath .T (((text.splitOn ".").map (starMapSeg pathStar)).map (fun v => (.pstep, v)))

/-- Does this `create()` call issue the one-time deprecation warning?
(`PATH_STAR` falsy, `_STAR_WARNED` not yet set, and a literal wildcard
segment present.) -/
def createWarns (pathStar warned : Bool) (text : String) : Bool :=
  !pathStar && !warned && hasStarSeg text

/-- Write back the per-flag cache and the warning latch. -/
def setFTState (st : FTState) (pathStar : Bool) (c : List (String × Path))
    (warned : Bool) : FTState :=
  if pathStar then ⟨c, st.cacheFalse, warned⟩ else ⟨st.cacheTrue, c, warned⟩

/-- `Path.from_text(text)` as a state transition.  Returns the new class-level
state, the returned `Path`, and whether this call issued the deprecation
warning.  Mirrors the source: a cached text returns the cached node (no
`create()` call, hence no warning); an uncached text always runs `create()`,
and is inserted only when `len(cache) > _MAX_CACHE` is false. -/
def from_text (pathStar : Bool) (st : FTState) (text : String) :
    FTState × Path × Bool :=
  let cache := if pathStar then st.cacheTrue else st.cacheFalse
  match lookupText text cache with
  | some p => (st, p, false)
  | none =>
    let w := createWarns pathStar st.starWarned text
    let p := createFromText pathStar text
    let warned := st.starWarned || w
    if cache.length > _MAX_CACHE then (setFTState st pathStar cache warned, p, w)
    else (setFTState st pathStar (cache ++ [(text, p)]) warned, p, w)

/-- Run a sequence of `Path.from_text` calls (each with the value the
`PATH_STAR` flag has at that call), collecting each call's returned `Path`
and warning emission. -/
def runFromText (st : FTState) : List (Bool × String) → FTState × List (Path × Bool)
  | [] => (st, [])
  | (flag, text) :: rest =>
    let r := from_text flag st text
    let q := runFromText r.1 rest
    (q.1, (r.2.1, r.2.2) :: q.2)

/-- Marks the first text of the list that contains a literal wildcard segment,
given whether the warning was already issued: the specification-side shape of
the warning behaviour. -/
def firstStarMark (warned : Bool) : List String → List Bool
  | [] => []
  | t :: rest => (!warned && hasStarSeg t) :: firstStarMark (warned || hasStarSeg t) rest

/-- Side condition for one optional slice bound over `n` steps: `None`, or an
integer not below `-n`.  (Bounds above `n` need no restriction: the rescaled
flattened bound clamps exactly like the pair-level bound does; only a bound
below `-n` stays negative after rescaling and gets re-interpreted from the
tuple's end.) -/
def slcBoundOK (n : Nat) (o : Option Int) : Bool :=
  match o with
  | none => true
  | some s => decide (-(n : Int) ≤ s)

/-- Side condition on the stride of a slice: `None`, positive, or negative
with both bounds omitted (plus nonzero — Python rejects a zero step). -/
def strideOK (st sp k : Option Int) : Bool :=
  match k with
  | none => true
  | some kk => decide (0 < kk) || (decide (kk < 0) && st.isNone && sp.isNone)

/-- Python's normalisation of an in-range integer index: nonnegative indices
are used as-is, negative ones count from the end. -/
def pyIdx (len : Nat) (i : Int) : Nat :=
  if 0 ≤ i then i.toNat else (i + len).toNat

/-- A description of one `Path(...)` argument for reasoning about
construction: a plain value, a bare T-expression over a root and steps, or a
`Path` over a root and steps (all well-formed). -/
inductive PartSpec
  | plain (v : PVal)
  | texpr (r : Root) (steps : List Step)
  | pexpr (r : Root) (steps : List Step)
  deriving DecidableEq, Repr

/-- The actual `Path.__init__` argument a `PartSpec` denotes. -/
def PartSpec.toPart : PartSpec → PathPart
  | .plain v => .plain v
  | .texpr r s => .t (mkT r s)
  | .pexpr r s => .p (mkPath r s)

/-- Does this part trip the `sub_parts[0] is not T` check of `Path.__init__`
when it is processed by the part loop? -/
def PartSpec.badRoot : PartSpec → Bool
  | .plain _ => false
  | .texpr r _ => decide (r ≠ Root.T)
  | .pexpr r _ => decide (r ≠ Root.T)

/-- The parts of a `Path(...)` call that go through the part loop (and hence
through the root check): all of them, except that a leading bare T-expression
is consumed as the starting node instead. -/
def checkedParts : List PartSpec → List PartSpec
  | .texpr _ _ :: rest => rest
  | other => other

/-! ## Helper lemmas -/

lemma stepsToElems_append (s1 s2 : List Step) :
    stepsToElems (s1 ++ s2) = stepsToElems s1 ++ stepsToElems s2 := by
  induction s1 with
  | nil => rfl
  | cons a rest ih => cases a; simp [stepsToElems, ih]

lemma stepsToElems_length (s : List Step) :
    (stepsToElems s).length = 2 * s.length := by
  induction s with
  | nil => rfl
  | cons a rest ih => cases a; simp [stepsToElems, ih]; omega

lemma stepsToElems_take (s : List Step) (n : Nat) :
    stepsToElems (s.take n) = (stepsToElems s).take (2 * n) := by
  induction s generalizing n with
  | nil => simp [stepsToElems]
  | cons a rest ih =>
    cases a with
    | mk o v =>
      cases n with
      | zero => rfl
      | succ m =>
        have h2 : 2 * (m + 1) = 2 * m + 1 + 1 := by omega
        simp [stepsToElems, h2, List.take_succ_cons, ih]

lemma stepsToElems_drop (s : List Step) (n : Nat) :
    stepsToElems (s.drop n) = (stepsToElems s).drop (2 * n) := by
  induction s generalizing n with
  | nil => simp [stepsToElems]
  | cons a rest ih =>
    cases a with
    | mk o v =>
      cases n with
      | zero => rfl
      | succ m =>
        have h2 : 2 * (m + 1) = 2 * m + 1 + 1 := by omega
        simp [stepsToElems, h2, ih]

lemma stepsToElems_inj {s1 s2 : List Step}
    (h : stepsToElems s1 = stepsToElems s2) : s1 = s2 := by
  induction s1 generalizing s2 with
  | nil => cases s2 with
    | nil => rfl
    | cons b rest => cases b; simp [stepsToElems] at h
  | cons a rest ih =>
    cases a with
    | mk o v =>
      cases s2 with
      | nil => simp [stepsToElems] at h
      | cons b rest2 =>
        cases b with
        | mk o2 v2 =>
          simp [stepsToElems] at h
          obtain ⟨h1, h2, h3⟩ := h
          simp [h1, h2, ih h3]

lemma pairsToElems_map_stepPair (s : List Step) :
    pairsToElems (s.map stepPair) = stepsToElems s := by
  induction s with
  | nil => rfl
  | cons a rest ih => cases a; simp [pairsToElems, stepsToElems, stepPair, ih]

lemma everyNthAux_shift {α : Type _} (k : Nat) (n : Nat) (l : List α) :
    everyNthAux k n l = everyNthAux k 0 (l.drop n) := by
  induction l generalizing n with
  | nil => simp [everyNthAux]
  | cons a rest ih =>
    cases n with
    | zero => rfl
    | succ m => simpa [everyNthAux] using ih m

lemma everyNth_cons {α : Type _} (k : Nat) (a : α) (l : List α) :
    everyNth k (a :: l) = a :: everyNth k (l.drop (k - 1)) := by
  simp [everyNth, everyNthAux, everyNthAux_shift]

lemma everyNth_one {α : Type _} (l : List α) : everyNth 1 l = l := by
  induction l with
  | nil => rfl
  | cons a rest ih => simpa [everyNth_cons] using ih

lemma everyNth_two_pairs_fst (L : List (TPathElem × TPathElem)) :
    everyNth 2 (pairsToElems L) = L.map (fun x => x.1) := by
  induction L with
  | nil => rfl
  | cons a rest ih => cases a; simp [pairsToElems, everyNth_cons, ih]

lemma everyNth_two_pairs_snd (L : List (TPathElem × TPathElem)) :
    everyNth 2 ((pairsToElems L).drop 1) = L.map (fun x => x.2) := by
  induction L with
  | nil => rfl
  | cons a rest ih =>
    cases a with
    | mk x y =>
      cases rest with
      | nil => rfl
      | cons b rest2 => cases b; simpa [pairsToElems, everyNth_cons] using ih

lemma pyClamp_nonneg_le (len : Nat) (i : Int) (h0 : 0 ≤ i) (hle : i ≤ (len : Int)) :
    pyClamp len i = i.toNat := by
  simp only [pyClamp]
  split_ifs <;> omega

lemma pyClamp_ge (len : Nat) (i : Int) (h : (len : Int) ≤ i) : pyClamp len i = len := by
  simp only [pyClamp]
  split_ifs <;> omega

lemma pyClamp_neg_inrange (len : Nat) (i : Int) (h0 : -(len : Int) ≤ i) (h1 : i < 0) :
    pyClamp len i = (i + len).toNat := by
  simp only [pyClamp]
  split_ifs <;> omega

lemma pySlice_some_some {α : Type _} (l : List α) (a b : Int) :
    pySlice l (some a) (some b) = (l.take (pyClamp l.length b)).drop (pyClamp l.length a) := rfl

lemma pySlice_some_none {α : Type _} (l : List α) (a : Int) :
    pySlice l (some a) none = l.drop (pyClamp l.length a) := by
  simp [pySlice, pyClamp_ge l.length l.length le_rfl]

lemma pySlice_none_none {α : Type _} (l : List α) : pySlice l none none = l := by
  have h0 : pyClamp l.length 0 = 0 := pyClamp_nonneg_le _ _ le_rfl (by omega)
  simp [pySlice, pyClamp_ge l.length l.length le_rfl, h0]

lemma pySlice_some_nonneg_none {α : Type _} (l : List α) (a : Int) (h : 0 ≤ a) :
    pySlice l (some a) none = l.drop a.toNat := by
  rw [pySlice_some_none]
  rcases le_or_lt a (l.length : Int) with hle | hgt
  · rw [pyClamp_nonneg_le _ _ h hle]
  · rw [pyClamp_ge _ _ (le_of_lt hgt)]
    rw [List.drop_length]
    rw [List.drop_eq_nil_iff.mpr (by omega)]

lemma everyNth_two_steps_fst (s : List Step) :
    everyNth 2 (stepsToElems s) = s.map (fun x => TPathElem.opEl x.1) := by
  rw [← pairsToElems_map_stepPair, everyNth_two_pairs_fst, List.map_map]
  rfl

lemma everyNth_two_steps_snd (s : List Step) :
    everyNth 2 ((stepsToElems s).drop 1) = s.map (fun x => TPathElem.valEl x.2) := by
  rw [← pairsToElems_map_stepPair, everyNth_two_pairs_snd, List.map_map]
  rfl

/-- `Path.items` of any node rebuilt over a root element and flattened raw
pairs recovers exactly those pairs (the `[1::2]` / `[2::2]` / `zip` dance). -/
lemma items_of_pairs (e : TPathElem) (L : List (TPathElem × TPathElem)) :
    Path.items ⟨⟨e :: pairsToElems L⟩⟩ = L := by
  unfold Path.items pyExtSlice
  simp only [_T_PATHS, Option.getD_some]
  norm_num
  rw [pySlice_some_nonneg_none _ 1 (by omega), pySlice_some_nonneg_none _ 2 (by omega)]
  show (everyNth 2 (pairsToElems L)).zip (everyNth 2 ((pairsToElems L).drop 1)) = L
  rw [everyNth_two_pairs_fst, everyNth_two_pairs_snd, List.zip_map']
  simp

lemma items_mkPath (r : Root) (s : List Step) :
    (mkPath r s).items = s.map stepPair := by
  have h : mkPath r s = ⟨⟨.rootEl r :: pairsToElems (s.map stepPair)⟩⟩ := by
    simp [mkPath, mkT, pairsToElems_map_stepPair]
  rw [h, items_of_pairs]

lemma len_mkPath (r : Root) (s : List Step) : (mkPath r s).len = s.length := by
  simp [Path.len, mkPath, mkT, _T_PATHS, stepsToElems_length]

lemma tpath_mkT_length (r : Root) (s : List Step) :
    (_T_PATHS (mkT r s)).length = 2 * s.length + 1 := by
  simp [mkT, _T_PATHS, stepsToElems_length]

lemma pathInit_single_t (tt : TType) : pathInit [.t tt] = .ok ⟨tt⟩ := rfl

lemma slcBound_getD {N : Nat} {o : Option Int} {d : Int} (h : slcBoundOK N o = true)
    (hd0 : -(N : Int) ≤ d) : -(N : Int) ≤ o.getD d := by
  cases o with
  | none => exact hd0
  | some s0 => simpa [slcBoundOK] using of_decide_eq_true h

lemma flatIdx_pyClamp (N : Nat) (s0 : Int) (h0 : -(N : Int) ≤ s0) :
    pyClamp (2 * N + 1) (flatIdx (2 * N + 1) s0) = 2 * pyClamp N s0 + 1 := by
  simp only [flatIdx, pyClamp]
  split_ifs <;> omega

lemma pySlice_map {α β : Type _} (f : α → β) (l : List α) (st sp : Option Int) :
    pySlice (l.map f) st sp = (pySlice l st sp).map f := by
  simp [pySlice, List.map_take, List.map_drop, List.length_map]

/-- Slicing the flattened tuple with the rescaled bounds of
`Path.__getitem__` extracts exactly the flattened pair-level unit slice, as
long as both bounds are in range. -/
lemma pySlice_tuple (r : Root) (s : List Step) (st sp : Option Int)
    (hst : slcBoundOK s.length st = true) (hsp : slcBoundOK s.length sp = true) :
    pySlice (_T_PATHS (mkT r s)) (some (flatIdx (_T_PATHS (mkT r s)).length (st.getD 0)))
      (sp.map (flatIdx (_T_PATHS (mkT r s)).length))
    = stepsToElems (pySlice s st sp) := by
  set N := s.length with hN
  have hlen : (_T_PATHS (mkT r s)).length = 2 * N + 1 := tpath_mkT_length r s
  have hst' := slcBound_getD hst (d := 0) (by omega)
  have hstart : pyClamp (_T_PATHS (mkT r s)).length
      (flatIdx (_T_PATHS (mkT r s)).length (st.getD 0)) = 2 * pyClamp N (st.getD 0) + 1 := by
    rw [hlen]; exact flatIdx_pyClamp N _ hst'
  cases sp with
  | none =>
    rw [Option.map_none', pySlice_some_none, hstart]
    show (TPathElem.rootEl r :: stepsToElems s).drop (2 * pyClamp N (st.getD 0) + 1) = _
    rw [List.drop_succ_cons, ← stepsToElems_drop]
    simp only [pySlice, Option.getD_none, hN]
    rw [pyClamp_ge s.length s.length le_rfl, List.take_length]
  | some sb =>
    have hsp' := slcBound_getD hsp (d := (N : Int)) (by omega)
    simp only [Option.getD_some] at hsp'
    have hstop : pyClamp (_T_PATHS (mkT r s)).length
        (flatIdx (_T_PATHS (mkT r s)).length sb) = 2 * pyClamp N sb + 1 := by
      rw [hlen]; exact flatIdx_pyClamp N _ hsp'
    rw [Option.map_some', pySlice_some_some, hstop, hstart]
    show ((TPathElem.rootEl r :: stepsToElems s).take (2 * pyClamp N sb + 1)).drop
        (2 * pyClamp N (st.getD 0) + 1) = _
    rw [List.take_succ_cons, List.drop_succ_cons, ← stepsToElems_take, ← stepsToElems_drop]
    simp only [pySlice, Option.getD_some, hN]

/-- The `zip(new_path[::2], new_path[1::2])` pairing inside
`Path.__getitem__` recovers the step pairs of a flattened step list. -/
lemma pairs_extract (s : List Step) :
    (pyExtSlice (stepsToElems s) none none (some 2)).zip
      (pyExtSlice (stepsToElems s) (some 1) none (some 2)) = s.map stepPair := by
  have h2 : ((some (2 : Int)).getD 1) = 2 := rfl
  simp only [pyExtSlice, h2]
  norm_num
  rw [pySlice_none_none, pySlice_some_nonneg_none _ 1 (by omega)]
  show (everyNth 2 (stepsToElems s)).zip (everyNth 2 ((stepsToElems s).drop 1)) = _
  rw [everyNth_two_steps_fst, everyNth_two_steps_snd, List.zip_map']
  rfl

lemma pyExtSlice_none {α : Type _} [Inhabited α] (l : List α) (st sp : Option Int) :
    pyExtSlice l st sp none = pySlice l st sp := by
  simp only [pyExtSlice, Option.getD_none]
  rw [if_pos (by norm_num : (0 : Int) < 1)]
  rw [Int.toNat_one, everyNth_one]

lemma pyExtSlice_pos {α : Type _} [Inhabited α] (l : List α) (st sp : Option Int)
    (kk : Int) (h : 0 < kk) :
    pyExtSlice l st sp (some kk) = everyNth kk.toNat (pySlice l st sp) := by
  simp only [pyExtSlice, Option.getD_some]
  rw [if_pos h]

lemma headD_mkT (r : Root) (s : List Step) :
    (_T_PATHS (mkT r s)).headD default = TPathElem.rootEl r := rfl

/-- Master lemma for the slice branch of `Path.__getitem__` on a well-formed
path: with in-range bounds and an admissible stride, the result is the node
over the same root whose steps are the strided Python slice of the original
steps. -/
lemma getitem_slc (r : Root) (s : List Step) (st sp k : Option Int)
    (hst : slcBoundOK s.length st = true) (hsp : slcBoundOK s.length sp = true)
    (hk : strideOK st sp k = true) :
    Path.getitem (mkPath r s) (.slc st sp k)
      = .ok ⟨⟨.rootEl r :: pairsToElems (pyExtSlice (s.map stepPair) st sp k)⟩⟩ := by
  have hslice : pySlice (_T_PATHS (mkPath r s).path_t)
      (some (flatIdx (_T_PATHS (mkPath r s).path_t).length (st.getD 0)))
      (sp.map (flatIdx (_T_PATHS (mkPath r s).path_t).length))
      = stepsToElems (pySlice s st sp) := pySlice_tuple r s st sp hst hsp
  have hhead : (_T_PATHS (mkPath r s).path_t).headD default = TPathElem.rootEl r := rfl
  show pathInit [.t (getitemNewT (_T_PATHS (mkPath r s).path_t)
      (flatIdx (_T_PATHS (mkPath r s).path_t).length (st.getD 0))
      (sp.map (flatIdx (_T_PATHS (mkPath r s).path_t).length)) k)] = _
  rw [pathInit_single_t]
  simp only [Except.ok.injEq, Path.mk.injEq]
  unfold getitemNewT
  rw [hslice, hhead]
  simp only [TType.mk.injEq, List.cons.injEq, true_and]
  cases k with
  | none =>
    simp only [getitemRestride]
    rw [pyExtSlice_none, pySlice_map, pairsToElems_map_stepPair]
  | some kk =>
    by_cases h1 : kk = 1
    · subst h1
      have hrhs := pyExtSlice_pos (s.map stepPair) st sp 1 (by norm_num)
      rw [hrhs, Int.toNat_one, everyNth_one, pySlice_map]
      simp only [getitemRestride, if_true, eq_self_iff_true, if_pos]
      rw [pairsToElems_map_stepPair]
    · simp only [getitemRestride, if_neg h1]
      rw [pairs_extract]
      simp only [strideOK] at hk
      rcases Bool.or_eq_true_iff.mp hk with hpos | hneg
      · have hkk : 0 < kk := of_decide_eq_true hpos
        rw [pyExtSlice_pos _ _ _ _ hkk, pyExtSlice_pos _ _ _ _ hkk,
          pySlice_none_none, pySlice_map]
      · have h3 := Bool.and_eq_true_iff.mp hneg
        have h4 := Bool.and_eq_true_iff.mp h3.1
        have hstn : st = none := Option.isNone_iff_eq_none.mp h4.2
        have hspn : sp = none := Option.isNone_iff_eq_none.mp h3.2
        subst hstn
        subst hspn
        rw [pySlice_none_none]

lemma pyClamp_ofNat (len n : Nat) (h : n ≤ len) : pyClamp len (n : Int) = n := by
  simp only [pyClamp]
  split_ifs <;> omega

lemma take_succ_drop_getD {α : Type _} [Inhabited α] (l : List α) (i : Nat)
    (h : i < l.length) : (l.take (i + 1)).drop i = [l.getD i default] := by
  induction l generalizing i with
  | nil => simp at h
  | cons a rest ih =>
    cases i with
    | zero => simp
    | succ m =>
      rw [List.take_succ_cons, List.drop_succ_cons, List.getD_cons_succ]
      exact ih m (by simpa using h)

/-- Slicing the flattened tuple at the rescaled positions of an in-range
integer index extracts exactly the flattened `j`-th step. -/
lemma pySlice_tuple_pair (r : Root) (s : List Step) (j : Nat) (hj : j < s.length) :
    pySlice (_T_PATHS (mkT r s)) (some (2 * (j : Int) + 1)) (some (2 * (j : Int) + 3))
      = stepsToElems [s.getD j default] := by
  rw [pySlice_some_some]
  have hlen := tpath_mkT_length r s
  have hc1 : (2 * (j : Int) + 1) = ((2 * j + 1 : Nat) : Int) := by push_cast; ring
  have hc2 : (2 * (j : Int) + 3) = ((2 * j + 3 : Nat) : Int) := by push_cast; ring
  rw [hc1, hc2, hlen, pyClamp_ofNat _ _ (by omega), pyClamp_ofNat _ _ (by omega)]
  show ((TPathElem.rootEl r :: stepsToElems s).take (2 * j + 3)).drop (2 * j + 1) = _
  rw [show 2 * j + 3 = (2 * (j + 1)) + 1 by ring, List.take_succ_cons,
    show 2 * j + 1 = (2 * j) + 1 by ring, List.drop_succ_cons,
    ← stepsToElems_take, ← stepsToElems_drop, take_succ_drop_getD s j hj]

/-- Master lemma for the integer branch of `Path.__getitem__` on a
well-formed path: an in-range index yields the one-step path holding the
normalised `i`-th step. -/
lemma getitem_idx (r : Root) (s : List Step) (i : Int)
    (h : (0 ≤ i ∧ i < (s.length : Int)) ∨ (-(s.length : Int) ≤ i ∧ i < 0)) :
    Path.getitem (mkPath r s) (.idx i)
      = .ok (mkPath r [s.getD (pyIdx s.length i) default]) := by
  have hlen : (_T_PATHS (mkPath r s).path_t).length = 2 * s.length + 1 :=
    tpath_mkT_length r s
  set j := pyIdx s.length i with hj
  have hjlt : j < s.length := by
    simp only [pyIdx, hj]
    split_ifs <;> omega
  have hstart : flatIdx (_T_PATHS (mkPath r s).path_t).length i = 2 * (j : Int) + 1 := by
    simp only [flatIdx, hlen, pyIdx, hj]
    split_ifs <;> omega
  have hstop : (if 0 ≤ i then 2 * (i + 1) + 1
      else 2 * (i + 1) + ((_T_PATHS (mkPath r s).path_t).length : Int)) = 2 * (j : Int) + 3 := by
    simp only [hlen, pyIdx, hj]
    split_ifs <;> [skip; skip] <;> push_cast <;> omega
  have hguard : ¬(flatIdx (_T_PATHS (mkPath r s).path_t).length i < 0 ∨
      ((_T_PATHS (mkPath r s).path_t).length : Int) <
        flatIdx (_T_PATHS (mkPath r s).path_t).length i) := by
    rw [hstart, hlen]
    push_cast
    omega
  show (if flatIdx (_T_PATHS (mkPath r s).path_t).length i < 0 ∨
      ((_T_PATHS (mkPath r s).path_t).length : Int) <
        flatIdx (_T_PATHS (mkPath r s).path_t).length i
    then (Except.error "Path index out of range" : Except String Path)
    else pathInit [.t (getitemNewT (_T_PATHS (mkPath r s).path_t)
      (flatIdx (_T_PATHS (mkPath r s).path_t).length i)
      (some (if 0 ≤ i then 2 * (i + 1) + 1
        else 2 * (i + 1) + ((_T_PATHS (mkPath r s).path_t).length : Int)))
      (some 1))]) = _
  rw [if_neg hguard, hstart, hstop, pathInit_single_t]
  simp only [Except.ok.injEq]
  simp only [getitemNewT, getitemRestride, reduceIte]
  have hps := pySlice_tuple_pair r s j hjlt
  rw [show _T_PATHS (mkPath r s).path_t = _T_PATHS (mkT r s) from rfl, hps, headD_mkT]
  rfl

lemma appendSub_steps (acc : TType) (s : List Step) :
    appendSub acc (stepsToElems s) = .ok ⟨acc.tpath ++ stepsToElems s⟩ := by
  induction s generalizing acc with
  | nil => simp [appendSub, stepsToElems]
  | cons a rest ih =>
    cases a with
    | mk o v =>
      show appendSub (_t_child acc (.opEl o) (.valEl v)) (stepsToElems rest) = _
      rw [ih]
      simp [_t_child, stepsToElems]

lemma subAppend_mkT_T (acc : TType) (s : List Step) :
    subAppend acc (mkT .T s) = .ok ⟨acc.tpath ++ stepsToElems s⟩ := by
  show (if TPathElem.rootEl Root.T = TPathElem.rootEl Root.T
      then appendSub acc (stepsToElems s)
      else .error "path segment must be path from T") = _
  rw [if_pos rfl]
  exact appendSub_steps acc s

lemma subAppend_not_T (acc : TType) (r : Root) (s : List Step) (h : r ≠ .T) :
    subAppend acc (mkT r s) = .error "path segment must be path from T" := by
  show (if TPathElem.rootEl r = TPathElem.rootEl Root.T
      then appendSub acc (stepsToElems s)
      else .error "path segment must be path from T") = _
  rw [if_neg (by simpa using h)]

lemma except_bind_ok {ε α β : Type _} (x : α) (f : α → Except ε β) :
    (Except.ok x >>= f) = f x := rfl

lemma except_bind_error {ε α β : Type _} (e : ε) (f : α → Except ε β) :
    ((Except.error e : Except ε α) >>= f) = Except.error e := rfl

/-- The part loop of `Path.__init__` fails with the root-compatibility
`ValueError` exactly when some processed part is a non-target-rooted
sub-expression. -/
lemma foldlM_parts_error_iff (ps : List PartSpec) (acc : TType) :
    ((ps.map PartSpec.toPart).foldlM pathInitStep acc
      = Except.error "path segment must be path from T")
    ↔ ps.any PartSpec.badRoot = true := by
  induction ps generalizing acc with
  | nil =>
    refine iff_of_false (fun hc => ?_) (by simp)
    rw [List.map_nil, List.foldlM_nil] at hc
    exact Except.noConfusion (show Except.ok acc
      = (Except.error "path segment must be path from T" : Except String TType) from hc)
  | cons p rest ih =>
    rw [List.map_cons, List.foldlM_cons]
    cases p with
    | plain v =>
      rw [show pathInitStep acc (PartSpec.plain v).toPart
        = .ok (_t_child acc (.opEl .pstep) (.valEl v)) from rfl, except_bind_ok]
      simp [PartSpec.badRoot, ih]
    | texpr r s =>
      by_cases hr : r = Root.T
      · subst hr
        rw [show pathInitStep acc (PartSpec.texpr Root.T s).toPart
          = subAppend acc (mkT .T s) from rfl, subAppend_mkT_T, except_bind_ok]
        simp [PartSpec.badRoot, ih]
      · rw [show pathInitStep acc (PartSpec.texpr r s).toPart
          = subAppend acc (mkT r s) from rfl, subAppend_not_T acc r s hr, except_bind_error]
        simp [PartSpec.badRoot, hr]
    | pexpr r s =>
      by_cases hr : r = Root.T
      · subst hr
        rw [show pathInitStep acc (PartSpec.pexpr Root.T s).toPart
          = subAppend acc (mkT .T s) from rfl, subAppend_mkT_T, except_bind_ok]
        simp [PartSpec.badRoot, ih]
      · rw [show pathInitStep acc (PartSpec.pexpr r s).toPart
          = subAppend acc (mkT r s) from rfl, subAppend_not_T acc r s hr, except_bind_error]
        simp [PartSpec.badRoot, hr]

/-- The part loop of `Path.__init__` succeeds when no processed part is a
non-target-rooted sub-expression. -/
lemma foldlM_parts_ok (ps : List PartSpec) (acc : TType)
    (h : ps.any PartSpec.badRoot = false) :
    ∃ t, (ps.map PartSpec.toPart).foldlM pathInitStep acc = Except.ok t := by
  induction ps generalizing acc with
  | nil => exact ⟨acc, rfl⟩
  | cons p rest ih =>
    rw [List.any_cons, Bool.or_eq_false_iff] at h
    rw [List.map_cons, List.foldlM_cons]
    cases p with
    | plain v =>
      rw [show pathInitStep acc (PartSpec.plain v).toPart
        = .ok (_t_child acc (.opEl .pstep) (.valEl v)) from rfl, except_bind_ok]
      exact ih _ h.2
    | texpr r s =>
      have hr : r = Root.T := by
        by_contra hc
        simp [PartSpec.badRoot, hc] at h
      subst hr
      rw [show pathInitStep acc (PartSpec.texpr Root.T s).toPart
        = subAppend acc (mkT .T s) from rfl, subAppend_mkT_T, except_bind_ok]
      exact ih _ h.2
    | pexpr r s =>
      have hr : r = Root.T := by
        by_contra hc
        simp [PartSpec.badRoot, hc] at h
      subst hr
      rw [show pathInitStep acc (PartSpec.pexpr Root.T s).toPart
        = subAppend acc (mkT .T s) from rfl, subAppend_mkT_T, except_bind_ok]
      exact ih _ h.2

lemma except_map_ok {ε α β : Type _} (x : α) (f : α → β) :
    (Except.ok x : Except ε α).map f = .ok (f x) := rfl

lemma pathInitStep_p (acc : TType) (q : Path) :
    pathInitStep acc (.p q) = subAppend acc q.path_t := rfl

lemma pathInitStep_t (acc : TType) (tt : TType) :
    pathInitStep acc (.t tt) = subAppend acc tt := rfl

lemma pathInit_cons_p (q : Path) (rest : List PathPart) :
    pathInit (.p q :: rest)
      = ((PathPart.p q :: rest).foldlM pathInitStep rootT).map (fun t => ⟨t⟩) := rfl

/-- `Path(p, q)` for target-rooted `p` and `q` concatenates the step lists. -/
lemma pathInit_concat_p (s1 s2 : List Step) :
    pathInit [.p (mkPath .T s1), .p (mkPath .T s2)] = .ok (mkPath .T (s1 ++ s2)) := by
  rw [pathInit_cons_p, List.foldlM_cons, pathInitStep_p,
    show (mkPath .T s1).path_t = mkT .T s1 from rfl, subAppend_mkT_T, except_bind_ok,
    List.foldlM_cons, pathInitStep_p,
    show (mkPath .T s2).path_t = mkT .T s2 from rfl, subAppend_mkT_T, except_bind_ok,
    List.foldlM_nil]
  show Except.ok (⟨⟨(rootT.tpath ++ stepsToElems s1) ++ stepsToElems s2⟩⟩ : Path) = _
  simp [mkPath, mkT, rootT, stepsToElems_append]

/-- Same as `pathInit_concat_p` with the second argument a bare T-expression. -/
lemma pathInit_concat_t (s1 s2 : List Step) :
    pathInit [.p (mkPath .T s1), .t (mkT .T s2)] = .ok (mkPath .T (s1 ++ s2)) := by
  rw [pathInit_cons_p, List.foldlM_cons, pathInitStep_p,
    show (mkPath .T s1).path_t = mkT .T s1 from rfl, subAppend_mkT_T, except_bind_ok,
    List.foldlM_cons, pathInitStep_t, subAppend_mkT_T, except_bind_ok, List.foldlM_nil]
  show Except.ok (⟨⟨(rootT.tpath ++ stepsToElems s1) ++ stepsToElems s2⟩⟩ : Path) = _
  simp [mkPath, mkT, rootT, stepsToElems_append]

lemma mkT_tpath_eq_iff (r1 r2 : Root) (s1 s2 : List Step) :
    (_T_PATHS (mkT r1 s1) = _T_PATHS (mkT r2 s2)) ↔ (r1 = r2 ∧ s1 = s2) := by
  show (TPathElem.rootEl r1 :: stepsToElems s1 = TPathElem.rootEl r2 :: stepsToElems s2) ↔ _
  rw [List.cons.injEq]
  constructor
  · rintro ⟨h1, h2⟩
    exact ⟨by simpa using h1, stepsToElems_inj h2⟩
  · rintro ⟨h1, h2⟩
    subst h1
    subst h2
    exact ⟨rfl, rfl⟩

/-- The flattened-tuple take-and-compare of `Path.startswith` is exactly
root equality plus step-list prefix. -/
lemma swCheck_iff (r1 r2 : Root) (s1 s2 : List Step) :
    swCheck (mkPath r1 s1) (mkT r2 s2) = true ↔ (r2 = r1 ∧ s1.take s2.length = s2) := by
  simp only [swCheck, decide_eq_true_eq]
  show ((TPathElem.rootEl r1 :: stepsToElems s1).take ((stepsToElems s2).length + 1)
    = TPathElem.rootEl r2 :: stepsToElems s2) ↔ _
  rw [List.take_succ_cons, stepsToElems_length, ← stepsToElems_take, List.cons.injEq]
  constructor
  · rintro ⟨h1, h2⟩
    exact ⟨by simpa using h1.symm, stepsToElems_inj h2⟩
  · rintro ⟨h1, h2⟩
    subst h1
    rw [h2]
    exact ⟨rfl, rfl⟩

lemma lookupText_none_iff (x : String) (c : List (String × Path)) :
    lookupText x c = none ↔ ∀ pr ∈ c, pr.1 ≠ x := by
  induction c with
  | nil => simp [lookupText]
  | cons pr rest ih =>
    cases pr with
    | mk t p =>
      by_cases h : t = x
      · subst h
        simp [lookupText]
      · simp [lookupText, h, ih]

lemma lookupText_mem {x : String} {c : List (String × Path)} {p : Path}
    (h : lookupText x c = some p) : (x, p) ∈ c := by
  induction c with
  | nil => simp [lookupText] at h
  | cons pr rest ih =>
    cases pr with
    | mk t q =>
      by_cases ht : t = x
      · subst ht
        simp only [lookupText, if_pos rfl, if_true, eq_self_iff_true, Option.some.injEq] at h
        subst h
        exact List.mem_cons_self _ _
      · simp only [lookupText, if_neg ht] at h
        exact List.mem_cons_of_mem _ (ih h)

lemma from_text_cached (flag : Bool) (st : FTState) (text : String) (p : Path)
    (h : lookupText text (if flag then st.cacheTrue else st.cacheFalse) = some p) :
    from_text flag st text = (st, p, false) := by
  simp only [from_text, h]

lemma from_text_full (flag : Bool) (st : FTState) (text : String)
    (h : lookupText text (if flag then st.cacheTrue else st.cacheFalse) = none)
    (hlen : (if flag then st.cacheTrue else st.cacheFalse).length > _MAX_CACHE) :
    from_text flag st text
      = (setFTState st flag (if flag then st.cacheTrue else st.cacheFalse)
          (st.starWarned || createWarns flag st.starWarned text),
        createFromText flag text, createWarns flag st.starWarned text) := by
  simp only [from_text, h, if_pos hlen]

lemma from_text_insert (flag : Bool) (st : FTState) (text : String)
    (h : lookupText text (if flag then st.cacheTrue else st.cacheFalse) = none)
    (hlen : ¬((if flag then st.cacheTrue else st.cacheFalse).length > _MAX_CACHE)) :
    from_text flag st text
      = (setFTState st flag ((if flag then st.cacheTrue else st.cacheFalse)
            ++ [(text, createFromText flag text)])
          (st.starWarned || createWarns flag st.starWarned text),
        createFromText flag text, createWarns flag st.starWarned text) := by
  simp only [from_text, h, if_neg hlen]

lemma runFromText_cons (c : Bool × String) (rest : List (Bool × String)) (st : FTState) :
    runFromText st (c :: rest)
      = ((runFromText (from_text c.1 st c.2).1 rest).1,
        ((from_text c.1 st c.2).2.1, (from_text c.1 st c.2).2.2)
          :: (runFromText (from_text c.1 st c.2).1 rest).2) := by
  cases c
  rfl

lemma createWarns_false (w : Bool) (t : String) :
    createWarns false w t = (!w && hasStarSeg t) := by
  simp [createWarns]

lemma bool_or_not_and (w h : Bool) : (w || (!w && h)) = (w || h) := by
  cases w <;> simp

/-- Cache-size bound and returned-value invariant of any sequence of
`Path.from_text` calls: each per-flag cache never exceeds `_MAX_CACHE + 1`
entries, and every call returns exactly the `create()` value for its text. -/
lemma runFromText_inv (calls : List (Bool × String)) (st : FTState)
    (hT : st.cacheTrue.length ≤ _MAX_CACHE + 1)
    (hF : st.cacheFalse.length ≤ _MAX_CACHE + 1)
    (hvT : ∀ pr ∈ st.cacheTrue, pr.2 = createFromText true pr.1)
    (hvF : ∀ pr ∈ st.cacheFalse, pr.2 = createFromText false pr.1) :
    (runFromText st calls).1.cacheTrue.length ≤ _MAX_CACHE + 1 ∧
    (runFromText st calls).1.cacheFalse.length ≤ _MAX_CACHE + 1 ∧
    (runFromText st calls).2.map Prod.fst = calls.map (fun c => createFromText c.1 c.2) := by
  induction calls generalizing st with
  | nil => exact ⟨hT, hF, rfl⟩
  | cons c rest ih =>
    obtain ⟨flag, text⟩ := c
    rw [runFromText_cons]
    rcases hl : lookupText text (if flag then st.cacheTrue else st.cacheFalse) with _ | p
    · by_cases hfull : (if flag then st.cacheTrue else st.cacheFalse).length > _MAX_CACHE
      · rw [from_text_full flag st text hl hfull]
        cases flag
        · simp only [Bool.false_eq_true, if_false, setFTState]
          have := ih ⟨st.cacheTrue, st.cacheFalse,
            st.starWarned || createWarns false st.starWarned text⟩ hT hF hvT hvF
          exact ⟨this.1, this.2.1, by simp [this.2.2]⟩
        · simp only [if_true, setFTState]
          have := ih ⟨st.cacheTrue, st.cacheFalse,
            st.starWarned || createWarns true st.starWarned text⟩ hT hF hvT hvF
          exact ⟨this.1, this.2.1, by simp [this.2.2]⟩
      · rw [from_text_insert flag st text hl hfull]
        cases flag
        · simp only [Bool.false_eq_true, if_false, setFTState] at hfull ⊢
          have hF' : (st.cacheFalse ++ [(text, createFromText false text)]).length
              ≤ _MAX_CACHE + 1 := by
            simp only [List.length_append, List.length_cons, List.length_nil]
            omega
          have hvF' : ∀ pr ∈ st.cacheFalse ++ [(text, createFromText false text)],
              pr.2 = createFromText false pr.1 := by
            intro pr hpr
            rcases List.mem_append.mp hpr with hin | hin
            · exact hvF pr hin
            · simp only [List.mem_singleton] at hin
              subst hin
              rfl
          have := ih ⟨st.cacheTrue, st.cacheFalse ++ [(text, createFromText false text)],
            st.starWarned || createWarns false st.starWarned text⟩ hT hF' hvT hvF'
          exact ⟨this.1, this.2.1, by simp [this.2.2]⟩
        · simp only [if_true, setFTState] at hfull ⊢
          have hT' : (st.cacheTrue ++ [(text, createFromText true text)]).length
              ≤ _MAX_CACHE + 1 := by
            simp only [List.length_append, List.length_cons, List.length_nil]
            omega
          have hvT' : ∀ pr ∈ st.cacheTrue ++ [(text, createFromText true text)],
              pr.2 = createFromText true pr.1 := by
            intro pr hpr
            rcases List.mem_append.mp hpr with hin | hin
            · exact hvT pr hin
            · simp only [List.mem_singleton] at hin
              subst hin
              rfl
          have := ih ⟨st.cacheTrue ++ [(text, createFromText true text)], st.cacheFalse,
            st.starWarned || createWarns true st.starWarned text⟩ hT' hF hvT' hvF
          exact ⟨this.1, this.2.1, by simp [this.2.2]⟩
    · rw [from_text_cached flag st text p hl]
      have hp : p = createFromText flag text := by
        have hmem := lookupText_mem hl
        cases flag
        · simp only [Bool.false_eq_true, if_false] at hmem
          exact hvF (text, p) hmem
        · simp only [if_true] at hmem
          exact hvT (text, p) hmem
      have := ih st hT hF hvT hvF
      exact ⟨this.1, this.2.1, by simp [this.2.2, hp]⟩

/-- Warning-emission shape of flag-off `Path.from_text` call sequences: the
emitted warnings are exactly `firstStarMark` of the texts, provided no
wildcard text is already cached while the latch is unset. -/
lemma runFromText_star (ts : List String) (st : FTState)
    (hstar : st.starWarned = false → ∀ pr ∈ st.cacheFalse, hasStarSeg pr.1 = false) :
    (runFromText st (ts.map (fun t => (false, t)))).2.map Prod.snd
      = firstStarMark st.starWarned ts := by
  induction ts generalizing st with
  | nil => rfl
  | cons t rest ih =>
    rw [List.map_cons, runFromText_cons]
    rcases hl : lookupText t st.cacheFalse with _ | p
    · have hl' : lookupText t (if false then st.cacheTrue else st.cacheFalse) = none := by
        simpa using hl
      by_cases hfull : (if false then st.cacheTrue else st.cacheFalse).length > _MAX_CACHE
      · rw [from_text_full false st t hl' hfull]
        simp only [setFTState, Bool.false_eq_true, if_false, List.map_cons]
        rw [createWarns_false, firstStarMark]
        refine congrArg _ ?_
        rw [ih ⟨st.cacheTrue, st.cacheFalse, st.starWarned
          || (!st.starWarned && hasStarSeg t)⟩ ?_, bool_or_not_and]
        intro hw pr hpr
        simp only [Bool.or_eq_false_iff, Bool.and_eq_false_iff] at hw
        exact hstar hw.1 pr hpr
      · rw [from_text_insert false st t hl' hfull]
        simp only [setFTState, Bool.false_eq_true, if_false, List.map_cons]
        rw [createWarns_false, firstStarMark]
        refine congrArg _ ?_
        rw [ih ⟨st.cacheTrue, st.cacheFalse ++ [(t, createFromText false t)], st.starWarned
          || (!st.starWarned && hasStarSeg t)⟩ ?_, bool_or_not_and]
        intro hw pr hpr
        simp only [Bool.or_eq_false_iff, Bool.and_eq_false_iff, Bool.not_eq_false] at hw
        rcases List.mem_append.mp hpr with hin | hin
        · exact hstar hw.1 pr hin
        · simp only [List.mem_singleton] at hin
          subst hin
          rcases hw.2 with hc | hc
        -- hw.2 : !st.starWarned = false ∨ hasStarSeg t = false; with hw.1 : starWarned = false
          · rw [hw.1] at hc
            simp at hc
          · exact hc
    · have hl' : lookupText t (if false then st.cacheTrue else st.cacheFalse) = some p := by
        simpa using hl
      rw [from_text_cached false st t p hl']
      simp only [List.map_cons]
      rw [firstStarMark]
      by_cases hw : st.starWarned
      · rw [hw]
        refine congrArg _ ?_
        simpa [hw] using ih st (by simp [hw])
      · have hwf : st.starWarned = false := by simpa using hw
        have hns : hasStarSeg t = false := hstar hwf (t, p) (lookupText_mem hl)
        rw [hwf, hns]
        refine congrArg _ ?_
        simpa [hwf, hns] using ih st (by rw [hwf]; exact fun _ => hstar hwf)

lemma firstStarMark_count (w : Bool) (ts : List String) :
    (firstStarMark w ts).count true ≤ if w then 0 else 1 := by
  induction ts generalizing w with
  | nil => simp [firstStarMark]
  | cons t rest ih =>
    rw [firstStarMark]
    cases w with
    | true =>
      rw [show (!true && hasStarSeg t) = false by simp,
        List.count_cons_of_ne (by simp), Bool.true_or]
      have h1 := ih true
      simpa using h1
    | false =>
      cases hst : hasStarSeg t with
      | false =>
        rw [show (!false && false) = false by simp,
          List.count_cons_of_ne (by simp), Bool.false_or]
        exact ih false
      | true =>
        rw [show (!false && true) = true by simp, List.count_cons_self,
          Bool.false_or]
        have h1 := ih true
        simp only [if_pos rfl, if_true] at h1
        simp only [Bool.false_eq_true, if_false]
        omega

lemma createFromText_false (t : String) :
    createFromText false t
      = mkPath .T ((t.splitOn ".").map (fun seg => (POp.pstep, PVal.str seg))) := by
  simp [createFromText, starMapSeg, List.map_map]
  rfl

/-- Inserting distinct, uncached texts grows the flag-off cache by exactly one
entry per call, as long as the bound is not yet exceeded. -/
lemma runFromText_fresh_growth (ts : List String) (st : FTState)
    (hnodup : ts.Nodup)
    (hfresh : ∀ t ∈ ts, lookupText t st.cacheFalse = none)
    (hlen : st.cacheFalse.length + ts.length ≤ _MAX_CACHE + 1) :
    (runFromText st (ts.map (fun t => (false, t)))).1.cacheFalse.length
      = st.cacheFalse.length + ts.length := by
  induction ts generalizing st with
  | nil => rfl
  | cons t rest ih =>
    rw [List.map_cons, runFromText_cons]
    have hl : lookupText t (if false then st.cacheTrue else st.cacheFalse) = none := by
      simpa using hfresh t (List.mem_cons_self _ _)
    have hfull : ¬((if false then st.cacheTrue else st.cacheFalse).length > _MAX_CACHE) := by
      simp only [Bool.false_eq_true, if_false]
      simp only [List.length_cons] at hlen
      omega
    rw [from_text_insert false st t hl hfull]
    simp only [setFTState, Bool.false_eq_true, if_false]
    have hres := ih ⟨st.cacheTrue, st.cacheFalse ++ [(t, createFromText false t)],
      st.starWarned || createWarns false st.starWarned t⟩
      (List.Nodup.of_cons hnodup) ?_ ?_
    · rw [hres]
      simp only [List.length_append, List.length_cons, List.length_nil]
      omega
    · intro t2 ht2
      rw [lookupText_none_iff]
      intro pr hpr
      rcases List.mem_append.mp hpr with hin | hin
      · exact (lookupText_none_iff t2 st.cacheFalse).mp
          (hfresh t2 (List.mem_cons_of_mem _ ht2)) pr hin
      · simp only [List.mem_singleton] at hin
        subst hin
        intro hc
        exact (List.nodup_cons.mp hnodup).1 (by rw [show t = t2 from hc]; exact ht2)
    · simp only [List.length_append, List.length_cons, List.length_nil]
      simp only [List.length_cons] at hlen
      omega

lemma pySlice_none_full (s : List Step) :
    pySlice (s.map stepPair) none (some (s.length : Int)) = s.map stepPair := by
  simp only [pySlice, Option.getD_none, Option.getD_some, List.length_map]
  rw [pyClamp_ofNat s.length s.length le_rfl,
    pyClamp_nonneg_le s.length 0 le_rfl (by omega)]
  simp

/-! ## Claim theorems -/

/-- C1: Path round-trip — for a Path built over any root with `N` steps, the
slice `p[:N]` is a Path over the same root with the same `_T_PATHS` tuple
(structurally equal to `p`, also under `Path.__eq__`), and resolving it
against any target in any scope yields exactly the result of resolving `p`
itself. -/
theorem c1_path_round_trip (r : Root) (steps : List Step) (target scope : Target) :
    ∃ q, Path.getitem (mkPath r steps) (.slc none (some (steps.length : Int)) none) = .ok q
      ∧ _T_PATHS q.path_t = _T_PATHS (mkPath r steps).path_t
      ∧ Path.eq q (.path (mkPath r steps)) = true
      ∧ Path.glomit q target scope = Path.glomit (mkPath r steps) target scope := by
  have hg := getitem_slc r steps none (some (steps.length : Int)) none
    (by simp [slcBoundOK])
    (by simp only [slcBoundOK, decide_eq_true_eq]; omega)
    (by simp [strideOK])
  rw [pyExtSlice_none, pySlice_none_full, pairsToElems_map_stepPair] at hg
  refine ⟨mkPath r steps, hg, rfl, ?_, rfl⟩
  simp [Path.eq]

/-- C2 counterexample: slicing a Path does not always match the Python-list
slice of its step sequence.  For `p = Path('a','b')`, the below-`-N` start of
`p[-4:]` is rescaled to a still-negative flattened index, misaligning the
tuple: the result carries one garbage pair instead of both steps; likewise
the below-`-N` stop of `p[:-3]` leaves one garbage step where the Python
slice of the step list is empty.  For `p4 = Path('a','b','c','d')`,
`p4[3:0:-1]` slices the flattened tuple upward first (getting nothing), so it
has no steps while the Python slice of the step list has three. -/
theorem c2_counterexample :
    ((Path.getitem (mkPath .T [(.pstep, .str "a"), (.pstep, .str "b")])
        (.slc (some (-4)) none none)).map Path.items
      = .ok [(.valEl (.str "a"), .opEl .pstep)])
    ∧ pyExtSlice ((mkPath .T [(.pstep, .str "a"), (.pstep, .str "b")]).items)
        (some (-4)) none none
      = [(.opEl .pstep, .valEl (.str "a")), (.opEl .pstep, .valEl (.str "b"))]
    ∧ ([((.valEl (.str "a") : TPathElem), (.opEl .pstep : TPathElem))]
      ≠ [((.opEl .pstep : TPathElem), (.valEl (.str "a") : TPathElem)),
        (.opEl .pstep, .valEl (.str "b"))])
    ∧ ((Path.getitem (mkPath .T [(.pstep, .str "a"), (.pstep, .str "b")])
        (.slc none (some (-3)) none)).map Path.items
      = .ok [(.opEl .pstep, .valEl (.str "a"))])
    ∧ pyExtSlice ((mkPath .T [(.pstep, .str "a"), (.pstep, .str "b")]).items)
        none (some (-3)) none
      = []
    ∧ ([((.opEl .pstep : TPathElem), (.valEl (.str "a") : TPathElem))]
      ≠ ([] : List (TPathElem × TPathElem)))
    ∧ ((Path.getitem (mkPath .T [(.pstep, .str "a"), (.pstep, .str "b"),
          (.pstep, .str "c"), (.pstep, .str "d")])
        (.slc (some 3) (some 0) (some (-1)))).map Path.items
      = .ok [])
    ∧ pyExtSlice ((mkPath .T [(.pstep, .str "a"), (.pstep, .str "b"),
          (.pstep, .str "c"), (.pstep, .str "d")]).items)
        (some 3) (some 0) (some (-1))
      = [(.opEl .pstep, .valEl (.str "d")), (.opEl .pstep, .valEl (.str "c")),
        (.opEl .pstep, .valEl (.str "b"))]
    ∧ (([] : List (TPathElem × TPathElem))
      ≠ [(.opEl .pstep, .valEl (.str "d")), (.opEl .pstep, .valEl (.str "c")),
        (.opEl .pstep, .valEl (.str "b"))]) := by
  refine ⟨rfl, rfl, by decide, rfl, rfl, by decide, rfl, rfl, by decide⟩

/-- C2 (amended): slicing and integer indexing operate only on the step list.
For every slice whose start and stop are each `None` or not below `-N`
(bounds above `N` clamp exactly as in Python and need no restriction), and
whose step is `None`, positive, or negative with both bounds omitted, the
steps of `p[slice]` equal the Python-list slice of `p`'s (operation, operand)
step sequence by that same slice, with `p`'s root preserved; for every
in-range integer `i`, `p[i]` is the one-step Path holding exactly the
normalised `i`-th step of `p`. -/
theorem c2_slice_index_amended (r : Root) (steps : List Step) (st sp k : Option Int)
    (hst : slcBoundOK steps.length st = true)
    (hsp : slcBoundOK steps.length sp = true)
    (hk : strideOK st sp k = true) :
    (∃ q, Path.getitem (mkPath r steps) (.slc st sp k) = .ok q
      ∧ q.items = pyExtSlice ((mkPath r steps).items) st sp k
      ∧ (_T_PATHS q.path_t).head? = some (.rootEl r))
    ∧ ∀ i : Int, ((0 ≤ i ∧ i < (steps.length : Int)) ∨ (-(steps.length : Int) ≤ i ∧ i < 0)) →
      Path.getitem (mkPath r steps) (.idx i)
        = .ok (mkPath r [steps.getD (pyIdx steps.length i) default]) := by
  constructor
  · refine ⟨⟨⟨.rootEl r :: pairsToElems (pyExtSlice (steps.map stepPair) st sp k)⟩⟩,
      getitem_slc r steps st sp k hst hsp hk, ?_, rfl⟩
    rw [items_of_pairs, items_mkPath]
  · intro i hi
    exact getitem_idx r steps i hi

/-- C2 witness: the amended statement evaluated at `Path('a','b','c','d')`,
slice `[1:100:2]` (a stop above `N`, admitted by the amendment) together with
the in-range-index conjunct. -/
theorem c2_slice_index_amended_witness :
    slcBoundOK 4 (some 1) = true ∧ slcBoundOK 4 (some 100) = true
    ∧ strideOK (some 1) (some 100) (some 2) = true
    ∧ ((∃ q, Path.getitem (mkPath .T [(.pstep, .str "a"), (.pstep, .str "b"),
          (.pstep, .str "c"), (.pstep, .str "d")]) (.slc (some 1) (some 100) (some 2)) = .ok q
      ∧ q.items = pyExtSlice ((mkPath .T [(.pstep, .str "a"), (.pstep, .str "b"),
          (.pstep, .str "c"), (.pstep, .str "d")]).items) (some 1) (some 100) (some 2)
      ∧ (_T_PATHS q.path_t).head? = some (.rootEl .T))
    ∧ ∀ i : Int, ((0 ≤ i ∧ i < (4 : Int)) ∨ (-(4 : Int) ≤ i ∧ i < 0)) →
      Path.getitem (mkPath .T [(.pstep, .str "a"), (.pstep, .str "b"),
          (.pstep, .str "c"), (.pstep, .str "d")]) (.idx i)
        = .ok (mkPath .T [[((.pstep : POp), PVal.str "a"), (.pstep, .str "b"),
          (.pstep, .str "c"), (.pstep, .str "d")].getD (pyIdx 4 i) default])) :=
  ⟨by decide, by decide, by decide,
    c2_slice_index_amended .T [(.pstep, .str "a"), (.pstep, .str "b"),
      (.pstep, .str "c"), (.pstep, .str "d")] (some 1) (some 100) (some 2)
      (by decide) (by decide) (by decide)⟩

/-- C3: structural equality and hashing — two Paths over the same root and
step sequence compare equal under `Path.__eq__` (and a Path compares equal to
a bare T-expression with the same root and steps) exactly when root and steps
coincide, anything of another type compares unequal, and structurally equal
nodes have equal structural hashes. -/
theorem c3_structural_eq_hash (r1 r2 : Root) (s1 s2 : List Step) :
    (Path.eq (mkPath r1 s1) (.path (mkPath r2 s2)) = true ↔ (r1 = r2 ∧ s1 = s2))
    ∧ (Path.eq (mkPath r1 s1) (.t (mkT r2 s2)) = true ↔ (r1 = r2 ∧ s1 = s2))
    ∧ Path.eq (mkPath r1 s1) .other = false
    ∧ (_T_PATHS (mkT r1 s1) = _T_PATHS (mkT r2 s2)
      → tHash (mkT r1 s1) = tHash (mkT r2 s2)) := by
  refine ⟨?_, ?_, rfl, ?_⟩
  · show decide (_T_PATHS (mkT r1 s1) = _T_PATHS (mkT r2 s2)) = true ↔ _
    rw [decide_eq_true_eq, mkT_tpath_eq_iff]
  · show decide (_T_PATHS (mkT r1 s1) = _T_PATHS (mkT r2 s2)) = true ↔ _
    rw [decide_eq_true_eq, mkT_tpath_eq_iff]
  · intro h
    unfold tHash
    rw [h]

/-- C3 witness: the equality and hash statements evaluated at
`Path(T.a)` against itself and against `T.a`. -/
theorem c3_structural_eq_hash_witness :
    (Path.eq (mkPath .T [(.attr, .str "a")]) (.path (mkPath .T [(.attr, .str "a")])) = true
      ↔ (Root.T = Root.T ∧ [((.attr : POp), PVal.str "a")] = [((.attr : POp), PVal.str "a")]))
    ∧ (Path.eq (mkPath .T [(.attr, .str "a")]) (.t (mkT .T [(.attr, .str "a")])) = true
      ↔ (Root.T = Root.T ∧ [((.attr : POp), PVal.str "a")] = [((.attr : POp), PVal.str "a")]))
    ∧ Path.eq (mkPath .T [(.attr, .str "a")]) .other = false
    ∧ (_T_PATHS (mkT .T [(.attr, .str "a")]) = _T_PATHS (mkT .T [(.attr, .str "a")])
      → tHash (mkT .T [(.attr, .str "a")]) = tHash (mkT .T [(.attr, .str "a")])) :=
  c3_structural_eq_hash .T .T [(.attr, .str "a")] [(.attr, .str "a")]

/-- C4 counterexample: the textual-shorthand cache is NOT bounded by 10,000
entries — the size check `len(cache) > _MAX_CACHE` runs before insertion, so
a run of 10,001 `from_text` calls on distinct wildcard-free texts (with the
flag off) leaves the flag-off cache with 10,001 = `_MAX_CACHE + 1` entries. -/
theorem c4_counterexample :
    (runFromText initFTState (((List.range (_MAX_CACHE + 1)).map
        (fun n => String.mk (List.replicate n 'a'))).map
      (fun t => (false, t)))).1.cacheFalse.length = _MAX_CACHE + 1 := by
  have hinj : Function.Injective (fun n => String.mk (List.replicate n 'a')) := by
    intro a b h
    have h2 : List.replicate a 'a' = List.replicate b 'a' := congrArg String.data h
    simpa using congrArg List.length h2
  have hres := runFromText_fresh_growth
    ((List.range (_MAX_CACHE + 1)).map (fun n => String.mk (List.replicate n 'a')))
    initFTState ((List.nodup_range _).map hinj) (fun t _ => rfl)
    (by rw [List.length_map, List.length_range]; exact le_of_eq (Nat.zero_add _))
  rw [hres, List.length_map, List.length_range]
  exact Nat.zero_add _

/-- C4 (amended): each per-flag interning cache holds at most
`_MAX_CACHE + 1 = 10,001` entries (the size check precedes insertion, so
growth stops only once the size exceeds 10,000); every call returns exactly
the `create()` value for its text, which with the wildcard flag off is
`Path(*text.split('.'))`; once the per-flag cache exceeds the bound, an
uncached call leaves both caches unchanged (the uncached-construction
fallback) while still returning that same `create()` value; and a cached
call returns the cached node with the state untouched. -/
theorem c4_cache_bound_amended (calls : List (Bool × String)) :
    (runFromText initFTState calls).1.cacheTrue.length ≤ _MAX_CACHE + 1
    ∧ (runFromText initFTState calls).1.cacheFalse.length ≤ _MAX_CACHE + 1
    ∧ (runFromText initFTState calls).2.map Prod.fst
        = calls.map (fun c => createFromText c.1 c.2)
    ∧ (∀ t : String, createFromText false t
        = mkPath .T ((t.splitOn ".").map (fun seg => (POp.pstep, PVal.str seg))))
    ∧ (∀ (flag : Bool) (st : FTState) (text : String),
        lookupText text (if flag then st.cacheTrue else st.cacheFalse) = none →
        (if flag then st.cacheTrue else st.cacheFalse).length > _MAX_CACHE →
        (from_text flag st text).1.cacheTrue = st.cacheTrue
        ∧ (from_text flag st text).1.cacheFalse = st.cacheFalse
        ∧ (from_text flag st text).2.1 = createFromText flag text)
    ∧ (∀ (flag : Bool) (st : FTState) (text : String) (p : Path),
        lookupText text (if flag then st.cacheTrue else st.cacheFalse) = some p →
        from_text flag st text = (st, p, false)) := by
  have h := runFromText_inv calls initFTState (by simp [initFTState])
    (by simp [initFTState]) (by simp [initFTState]) (by simp [initFTState])
  refine ⟨h.1, h.2.1, h.2.2, fun t => createFromText_false t, ?_, ?_⟩
  · intro flag st text hl hfull
    rw [from_text_full flag st text hl hfull]
    cases flag
    · exact ⟨rfl, rfl, rfl⟩
    · exact ⟨rfl, rfl, rfl⟩
  · intro flag st text p hl
    exact from_text_cached flag st text p hl

/-- C4 witness: the amended statement evaluated at the concrete call
sequence `from_text('a')` then `from_text('a.b')` with the flag off. -/
theorem c4_cache_bound_amended_witness :
    (runFromText initFTState [(false, "a"), (false, "a.b")]).1.cacheTrue.length
      ≤ _MAX_CACHE + 1
    ∧ (runFromText initFTState [(false, "a"), (false, "a.b")]).1.cacheFalse.length
      ≤ _MAX_CACHE + 1
    ∧ (runFromText initFTState [(false, "a"), (false, "a.b")]).2.map Prod.fst
        = [(false, "a"), (false, "a.b")].map (fun c => createFromText c.1 c.2)
    ∧ (∀ t : String, createFromText false t
        = mkPath .T ((t.splitOn ".").map (fun seg => (POp.pstep, PVal.str seg))))
    ∧ (∀ (flag : Bool) (st : FTState) (text : String),
        lookupText text (if flag then st.cacheTrue else st.cacheFalse) = none →
        (if flag then st.cacheTrue else st.cacheFalse).length > _MAX_CACHE →
        (from_text flag st text).1.cacheTrue = st.cacheTrue
        ∧ (from_text flag st text).1.cacheFalse = st.cacheFalse
        ∧ (from_text flag st text).2.1 = createFromText flag text)
    ∧ (∀ (flag : Bool) (st : FTState) (text : String) (p : Path),
        lookupText text (if flag then st.cacheTrue else st.cacheFalse) = some p →
        from_text flag st text = (st, p, false)) :=
  c4_cache_bound_amended [(false, "a"), (false, "a.b")]

lemma except_map_error_iff {ε α β : Type _} (e : Except ε α) (f : α → β) (msg : ε) :
    e.map f = .error msg ↔ e = .error msg := by
  cases e <;> simp [Except.map]

/-- C5 counterexample: the first part does not tolerate every root — a
`Path` (as opposed to a bare T-expression) in first position goes through the
part loop and its root check, so `Path(Path(S))` raises the
root-compatibility `ValueError` even though no part after the first exists. -/
theorem c5_counterexample :
    pathInit [.p (mkPath .S [])] = .error "path segment must be path from T" := rfl

/-- C5 (amended): `Path(part0, ...)` raises the `ValueError` while being
built exactly when some part processed by the part loop — every part except a
leading bare T-expression — is a T-expression or `Path` whose root is not
`T`; a leading bare T-expression may carry any root, plain parts never
trigger the error, and whenever no processed part is scope-rooted the
construction succeeds (so the error is never deferred to evaluation). -/
theorem c5_root_check_amended (ps : List PartSpec) :
    (pathInit (ps.map PartSpec.toPart) = .error "path segment must be path from T"
      ↔ (checkedParts ps).any PartSpec.badRoot = true)
    ∧ ((checkedParts ps).any PartSpec.badRoot = false
      → ∃ q, pathInit (ps.map PartSpec.toPart) = .ok q) := by
  cases ps with
  | nil =>
    refine ⟨iff_of_false (fun hc => Except.noConfusion hc) (by simp [checkedParts]), ?_⟩
    intro _
    exact ⟨⟨rootT⟩, rfl⟩
  | cons p rest =>
    cases p with
    | texpr r s =>
      have he : pathInit ((PartSpec.texpr r s :: rest).map PartSpec.toPart)
          = ((rest.map PartSpec.toPart).foldlM pathInitStep (mkT r s)).map
            (fun t => ⟨t⟩) := rfl
      rw [he, show checkedParts (PartSpec.texpr r s :: rest) = rest from rfl]
      refine ⟨?_, ?_⟩
      · rw [except_map_error_iff, foldlM_parts_error_iff]
      · intro h
        obtain ⟨t, ht⟩ := foldlM_parts_ok rest (mkT r s) h
        exact ⟨⟨t⟩, by rw [ht]; rfl⟩
    | plain v =>
      have he : pathInit ((PartSpec.plain v :: rest).map PartSpec.toPart)
          = (((PartSpec.plain v :: rest).map PartSpec.toPart).foldlM pathInitStep
            rootT).map (fun t => ⟨t⟩) := rfl
      rw [he, show checkedParts (PartSpec.plain v :: rest)
        = PartSpec.plain v :: rest from rfl]
      refine ⟨?_, ?_⟩
      · rw [except_map_error_iff, foldlM_parts_error_iff]
      · intro h
        obtain ⟨t, ht⟩ := foldlM_parts_ok (PartSpec.plain v :: rest) rootT h
        exact ⟨⟨t⟩, by rw [ht]; rfl⟩
    | pexpr r s =>
      have he : pathInit ((PartSpec.pexpr r s :: rest).map PartSpec.toPart)
          = (((PartSpec.pexpr r s :: rest).map PartSpec.toPart).foldlM pathInitStep
            rootT).map (fun t => ⟨t⟩) := rfl
      rw [he, show checkedParts (PartSpec.pexpr r s :: rest)
        = PartSpec.pexpr r s :: rest from rfl]
      refine ⟨?_, ?_⟩
      · rw [except_map_error_iff, foldlM_parts_error_iff]
      · intro h
        obtain ⟨t, ht⟩ := foldlM_parts_ok (PartSpec.pexpr r s :: rest) rootT h
        exact ⟨⟨t⟩, by rw [ht]; rfl⟩

/-- C5 witness: the amended statement evaluated at
`Path(S.a, T.b, 'c')` — a leading scope-rooted bare T-expression with
target-rooted and plain later parts, which constructs successfully. -/
theorem c5_root_check_amended_witness :
    (pathInit ([PartSpec.texpr .S [(.attr, .str "a")],
        PartSpec.texpr .T [(.attr, .str "b")],
        PartSpec.plain (.str "c")].map PartSpec.toPart)
      = .error "path segment must be path from T"
      ↔ (checkedParts [PartSpec.texpr .S [(.attr, .str "a")],
          PartSpec.texpr .T [(.attr, .str "b")],
          PartSpec.plain (.str "c")]).any PartSpec.badRoot = true)
    ∧ ((checkedParts [PartSpec.texpr .S [(.attr, .str "a")],
        PartSpec.texpr .T [(.attr, .str "b")],
        PartSpec.plain (.str "c")]).any PartSpec.badRoot = false
      → ∃ q, pathInit ([PartSpec.texpr .S [(.attr, .str "a")],
          PartSpec.texpr .T [(.attr, .str "b")],
          PartSpec.plain (.str "c")].map PartSpec.toPart) = .ok q) :=
  c5_root_check_amended [PartSpec.texpr .S [(.attr, .str "a")],
    PartSpec.texpr .T [(.attr, .str "b")], PartSpec.plain (.str "c")]

/-- C6: evaluation at the failing input.  The in-range check of
`Path.__getitem__` uses `start > len(cur_t_path)` where mimicking Python
sequence indexing requires `start >= len`: for `p = Path('a','b')`, `p[2]`
does not raise `IndexError` but silently returns the zero-step `Path()`,
while `p[3]` and `p[-3]` raise as intended. -/
theorem c6_index_boundary_eval :
    Path.getitem (mkPath .T [(.pstep, .str "a"), (.pstep, .str "b")]) (.idx 2)
      = .ok (mkPath .T [])
    ∧ Path.getitem (mkPath .T [(.pstep, .str "a"), (.pstep, .str "b")]) (.idx 3)
      = .error "Path index out of range"
    ∧ Path.getitem (mkPath .T [(.pstep, .str "a"), (.pstep, .str "b")]) (.idx (-3))
      = .error "Path index out of range" :=
  ⟨rfl, rfl, rfl⟩

/-- C7: with the wildcard flag off, across any sequence of `Path.from_text`
calls starting from the class-definition state, the deprecation warning is
emitted exactly on the first call whose text contains a literal `'*'` or
`'**'` segment (later wildcard calls do not warn — at most one warning is
ever issued), and every text is built with its wildcard segments as ordinary
string key segments. -/
theorem c7_star_warning_once (ts : List String) :
    (runFromText initFTState (ts.map (fun t => (false, t)))).2.map Prod.snd
      = firstStarMark false ts
    ∧ ((runFromText initFTState (ts.map (fun t => (false, t)))).2.map Prod.snd).count true ≤ 1
    ∧ (runFromText initFTState (ts.map (fun t => (false, t)))).2.map Prod.fst
      = ts.map (fun t => mkPath .T ((t.splitOn ".").map
          (fun seg => (POp.pstep, PVal.str seg)))) := by
  have h1 := runFromText_star ts initFTState (by intro _ pr hpr; simp [initFTState] at hpr)
  refine ⟨h1, ?_, ?_⟩
  · rw [h1]
    simpa using firstStarMark_count false ts
  · have h2 := (runFromText_inv (ts.map (fun t => (false, t))) initFTState
      (by simp [initFTState]) (by simp [initFTState])
      (by simp [initFTState]) (by simp [initFTState])).2.2
    rw [h2, List.map_map]
    simp [createFromText_false]

/-- C8: the empty expression is an identity — `Path()` has `path_t = T` with
zero steps, and resolving it against any target (in any scope) returns that
target unchanged. -/
theorem c8_empty_identity :
    pathInit [] = .ok (mkPath .T [])
    ∧ (mkPath .T []).len = 0
    ∧ ∀ target scope : Target, (mkPath .T []).glomit target scope = .ok target :=
  ⟨rfl, rfl, fun _ _ => rfl⟩

/-- C9 counterexample: `Path(p, q)` does not concatenate for every Path `p`
as first argument — a scope-rooted `p` raises the construction `ValueError`
(a `Path` first argument gets no root exemption), so no items equation can
hold for it. -/
theorem c9_counterexample :
    pathInit [.p (mkPath .S []), .p (mkPath .T [(.pstep, .str "b")])]
      = .error "path segment must be path from T" := rfl

/-- C9 (amended): for every target-rooted Path `p` and target-rooted Path or
T-expression `q`, `Path(p, q)` is the Path whose items are
`p.items() + q.items()`, whose length is `len(p) + len(q)`, and whose root is
`T`, the root of `p`. -/
theorem c9_concat_amended (s1 s2 : List Step) :
    ∃ pq, pathInit [.p (mkPath .T s1), .p (mkPath .T s2)] = .ok pq
      ∧ pathInit [.p (mkPath .T s1), .t (mkT .T s2)] = .ok pq
      ∧ pq.items = (mkPath .T s1).items ++ (mkPath .T s2).items
      ∧ pq.len = (mkPath .T s1).len + (mkPath .T s2).len
      ∧ (_T_PATHS pq.path_t).head? = some (.rootEl .T) := by
  refine ⟨mkPath .T (s1 ++ s2), pathInit_concat_p s1 s2, pathInit_concat_t s1 s2,
    ?_, ?_, rfl⟩
  · rw [items_mkPath, items_mkPath, items_mkPath, List.map_append]
  · rw [len_mkPath, len_mkPath, len_mkPath, List.length_append]

lemma pathInit_single_plain (v : PVal) :
    pathInit [.plain v] = .ok (mkPath .T [(.pstep, v)]) := rfl

lemma startswith_path (p q : Path) :
    Path.startswith p (.path q) = .ok (swCheck p q.path_t) := rfl

lemma startswith_t (p : Path) (tt : TType) :
    Path.startswith p (.t tt) = .ok (swCheck p tt) := rfl

lemma startswith_str (p : Path) (s : String) :
    Path.startswith p (.str s) = .ok (swCheck p (mkT .T [(.pstep, .str s)])) := rfl

/-- C10: `startswith` is exactly structural prefix — for a Path, a bare
T-expression, or a string argument (the string is wrapped as the one-step
`Path(other)`), `p.startswith(q)` returns `True` exactly when `q`'s root
equals `p`'s and `q`'s steps are a prefix of `p`'s; consequently
`p.startswith(p[:k])` holds for every `0 ≤ k ≤ len(p)`; any other argument
kind raises `TypeError`. -/
theorem c10_startswith_prefix (r1 r2 : Root) (s1 s2 : List Step) (str0 : String) :
    (Path.startswith (mkPath r1 s1) (.path (mkPath r2 s2)) = .ok true
      ↔ (r2 = r1 ∧ s1.take s2.length = s2))
    ∧ (Path.startswith (mkPath r1 s1) (.t (mkT r2 s2)) = .ok true
      ↔ (r2 = r1 ∧ s1.take s2.length = s2))
    ∧ (Path.startswith (mkPath r1 s1) (.str str0) = .ok true
      ↔ (Root.T = r1 ∧ s1.take 1 = [(POp.pstep, PVal.str str0)]))
    ∧ (∀ k : Nat, k ≤ s1.length →
      ∀ q, Path.getitem (mkPath r1 s1) (.slc none (some (k : Int)) none) = .ok q
        → Path.startswith (mkPath r1 s1) (.path q) = .ok true)
    ∧ Path.startswith (mkPath r1 s1) .other
      = .error "can only check if Path starts with string, Path or T" := by
  refine ⟨?_, ?_, ?_, ?_, rfl⟩
  · rw [startswith_path, show (mkPath r2 s2).path_t = mkT r2 s2 from rfl]
    simp only [Except.ok.injEq]
    exact swCheck_iff r1 r2 s1 s2
  · rw [startswith_t]
    simp only [Except.ok.injEq]
    exact swCheck_iff r1 r2 s1 s2
  · rw [startswith_str]
    simp only [Except.ok.injEq]
    exact swCheck_iff r1 .T s1 [(.pstep, .str str0)]
  · intro k hk q hq
    have hg := getitem_slc r1 s1 none (some (k : Int)) none
      (by simp [slcBoundOK])
      (by simp only [slcBoundOK, decide_eq_true_eq]; omega)
      (by simp [strideOK])
    have hsl : pySlice (s1.map stepPair) none (some (k : Int))
        = (s1.map stepPair).take k := by
      simp only [pySlice, Option.getD_none, Option.getD_some, List.length_map]
      rw [pyClamp_ofNat s1.length k hk, pyClamp_nonneg_le s1.length 0 le_rfl (by omega)]
      simp
    rw [pyExtSlice_none, hsl, ← List.map_take, pairsToElems_map_stepPair] at hg
    have heq := hq.symm.trans hg
    simp only [Except.ok.injEq] at heq
    subst heq
    rw [startswith_path]
    show Except.ok (swCheck (mkPath r1 s1) (mkT r1 (s1.take k))) = .ok true
    simp only [Except.ok.injEq]
    rw [swCheck_iff]
    refine ⟨rfl, ?_⟩
    rw [List.length_take, min_eq_left hk]

/-- C10 witness: the prefix characterisation evaluated at
`Path('a','b')` against `Path('a')`, the string `'a'`, the slice `p[:1]`,
and a non-path argument. -/
theorem c10_startswith_prefix_witness :
    (Path.startswith (mkPath .T [(.pstep, .str "a"), (.pstep, .str "b")])
        (.path (mkPath .T [(.pstep, .str "a")])) = .ok true
      ↔ (Root.T = Root.T ∧ [((.pstep : POp), PVal.str "a"),
          (.pstep, .str "b")].take 1 = [(.pstep, .str "a")]))
    ∧ (Path.startswith (mkPath .T [(.pstep, .str "a"), (.pstep, .str "b")])
        (.t (mkT .T [(.pstep, .str "a")])) = .ok true
      ↔ (Root.T = Root.T ∧ [((.pstep : POp), PVal.str "a"),
          (.pstep, .str "b")].take 1 = [(.pstep, .str "a")]))
    ∧ (Path.startswith (mkPath .T [(.pstep, .str "a"), (.pstep, .str "b")])
        (.str "a") = .ok true
      ↔ (Root.T = Root.T ∧ [((.pstep : POp), PVal.str "a"),
          (.pstep, .str "b")].take 1 = [(POp.pstep, PVal.str "a")]))
    ∧ (∀ k : Nat, k ≤ 2 →
      ∀ q, Path.getitem (mkPath .T [(.pstep, .str "a"), (.pstep, .str "b")])
          (.slc none (some (k : Int)) none) = .ok q
        → Path.startswith (mkPath .T [(.pstep, .str "a"), (.pstep, .str "b")])
            (.path q) = .ok true)
    ∧ Path.startswith (mkPath .T [(.pstep, .str "a"), (.pstep, .str "b")]) .other
      = .error "can only check if Path starts with string, Path or T" :=
  c10_startswith_prefix .T .T [(.pstep, .str "a"), (.pstep, .str "b")]
    [(.pstep, .str "a")] "a"

end Glom
